import Mathlib

/- Verification of the svg-brush backbone deformation engine
   (src/lib/PathMath.ts, src/lib/BrushDefinitions.ts, src/lib/Deformation.ts).

   JS numbers are idealized as real numbers.  External dependencies are
   abstracted: simplify-js and JS number formatting become fields of an
   explicit `ExtDeps` record threaded through the encoders, and the external
   svg-path-parser (parseSVG / makeAbsolute) is represented by the type of
   absolute commands it produces, together with a small modelled parser for
   the absolute M/L/Z subset.  The catalog data file FigmaBrushes.js is not
   part of the sources, so the catalog is a parameter of the lookup
   functions. -/

noncomputable section

/-- Point from PathMath.ts: a pair of coordinates. -/
structure Point where
  x : ℝ
  y : ℝ

/-- BrushShape from BrushDefinitions.ts: points plus a closed flag. -/
structure BrushShape where
  points : List Point
  closed : Bool

/-- Brush from BrushDefinitions.ts. -/
structure Brush where
  name : String
  outline : List BrushShape
  path : String

/-- Deformation.ts: `const backboneLength = 100`. -/
def backboneLength : ℝ := 100

/-- Deformation.ts: `const PARAM_EPSILON = 0.01`. -/
def PARAM_EPSILON : ℝ := 0.01

/-- ProjectionResult from Deformation.ts. -/
structure ProjectionResult where
  parameter : ℝ
  offset : Point

/-- Deformation.ts `projectPointToBackbone`. -/
def projectPointToBackbone (brushPoint : Point) : ProjectionResult :=
  let t := max 0 (min 1 (brushPoint.x / backboneLength))
  let backbonePoint : Point := ⟨t * backboneLength, 0⟩
  { parameter := t,
    offset := ⟨brushPoint.x - backbonePoint.x, brushPoint.y - backbonePoint.y⟩ }

/-- The summation loop of Deformation.ts `getPathLength`: `prev` is the
    point before the remaining list. -/
def pathLenAux : Point → List Point → ℝ
  | _, [] => 0
  | prev, curr :: rest =>
      Real.sqrt ((curr.x - prev.x) * (curr.x - prev.x) +
          (curr.y - prev.y) * (curr.y - prev.y)) +
        pathLenAux curr rest

/-- Deformation.ts `getPathLength` (0 for fewer than 2 points). -/
def getPathLength : List Point → ℝ
  | [] => 0
  | p :: rest => pathLenAux p rest

/-- The segment-walking loop of Deformation.ts `getPointAt`; falls off the
    end returning the last point seen. -/
def pointLoop : ℝ → ℝ → Point → List Point → Point
  | _, _, prev, [] => prev
  | targetDistance, currentDistance, prev, curr :: rest =>
      let dx := curr.x - prev.x
      let dy := curr.y - prev.y
      let segmentLength := Real.sqrt (dx * dx + dy * dy)
      if currentDistance + segmentLength ≥ targetDistance then
        let segmentT := (targetDistance - currentDistance) / segmentLength
        ⟨prev.x + dx * segmentT, prev.y + dy * segmentT⟩
      else pointLoop targetDistance (currentDistance + segmentLength) curr rest

/-- Deformation.ts `getPointAt`. -/
def getPointAt (points : List Point) (t : ℝ) : Point :=
  match points with
  | [] => ⟨0, 0⟩
  | [p] => p
  | p :: q :: rest =>
      if t ≤ 0 then p
      else if t ≥ 1 then (p :: q :: rest).getLast (List.cons_ne_nil _ _)
      else pointLoop (t * getPathLength (p :: q :: rest)) 0 p (q :: rest)

/-- The segment-walking loop of Deformation.ts `getTangentAt`.  The source
    returns the (normalized) direction of the first segment for which
    `currentDistance + l >= targetDistance` holds (or which is the last
    segment), provided that segment has positive length; a zero-length
    segment falls through and accumulates. -/
def tangentLoop : ℝ → ℝ → Point → List Point → Point
  | _, _, _, [] => ⟨1, 0⟩
  | targetDistance, currentDistance, prev, curr :: rest =>
      let dx := curr.x - prev.x
      let dy := curr.y - prev.y
      let l := Real.sqrt (dx * dx + dy * dy)
      if (currentDistance + l ≥ targetDistance ∨ rest.isEmpty) ∧ 0 < l then
        ⟨dx / l, dy / l⟩
      else tangentLoop targetDistance (currentDistance + l) curr rest

/-- Deformation.ts `getTangentAt` (returns (1,0) for fewer than 2 points). -/
def getTangentAt (points : List Point) (t : ℝ) : Point :=
  match points with
  | p :: q :: rest => tangentLoop (t * getPathLength (p :: q :: rest)) 0 p (q :: rest)
  | _ => ⟨1, 0⟩

/-- Deformation.ts `getNormalAt`: the tangent rotated 90 degrees
    counter-clockwise. -/
def getNormalAt (points : List Point) (t : ℝ) : Point :=
  ⟨-(getTangentAt points t).y, (getTangentAt points t).x⟩

/-- Deformation.ts `deformBrush` inner-loop body for one brush point. -/
def deformPoint (userPathPoints : List Point) (thickness : ℝ) (brushPoint : Point) : Point :=
  let projection := projectPointToBackbone brushPoint
  let pathPoint := getPointAt userPathPoints projection.parameter
  let normal := getNormalAt userPathPoints projection.parameter
  let offsetDistance := projection.offset.y * thickness
  ⟨pathPoint.x + normal.x * offsetDistance, pathPoint.y + normal.y * offsetDistance⟩

/-- Euclidean distance between two points (formalization vocabulary used to
    state perpendicular-distance properties). -/
def distPt (a b : Point) : ℝ :=
  Real.sqrt ((a.x - b.x) * (a.x - b.x) + (a.y - b.y) * (a.y - b.y))

/-- Length of the segment from `a` to `b` (formalization vocabulary). -/
def segLen (a b : Point) : ℝ :=
  Real.sqrt ((b.x - a.x) * (b.x - a.x) + (b.y - a.y) * (b.y - a.y))

/-- Normalized direction of the segment from `a` to `b` (formalization
    vocabulary). -/
def segDir (a b : Point) : Point :=
  ⟨(b.x - a.x) / segLen a b, (b.y - a.y) / segLen a b⟩

/-- All consecutive segments of `prev :: rest` have positive length
    (formalization vocabulary). -/
def segsPos : Point → List Point → Prop
  | _, [] => True
  | prev, curr :: rest => 0 < segLen prev curr ∧ segsPos curr rest

/-- Modelled from the spec: the renormalized average of the incoming and
    outgoing segment directions that section 4.1 of the spec prescribes for
    tangents at interior vertices. -/
def specAveragedTangent (incoming outgoing : Point) : Point :=
  let sx := incoming.x + outgoing.x
  let sy := incoming.y + outgoing.y
  ⟨sx / Real.sqrt (sx * sx + sy * sy), sy / Real.sqrt (sx * sx + sy * sy)⟩

/-- The accumulation loop of Deformation.ts `computeUserParameters`. -/
def paramsLoop : ℝ → ℝ → Point → List Point → List ℝ
  | _, _, _, [] => []
  | totalLength, accumulated, prev, curr :: rest =>
      let acc := accumulated +
        Real.sqrt ((curr.x - prev.x) * (curr.x - prev.x) +
          (curr.y - prev.y) * (curr.y - prev.y))
      (min 1 (acc / totalLength) * backboneLength) :: paramsLoop totalLength acc curr rest

/-- The `parameters` array of Deformation.ts `computeUserParameters` before
    deduplication: 0 followed by the normalized cumulative arc lengths. -/
def rawParameters (points : List Point) : List ℝ :=
  match points with
  | [] => []
  | p :: rest => 0 :: paramsLoop (getPathLength points) 0 p rest

/-- The deduplication loop of Deformation.ts `computeUserParameters`:
    keep a value only when it differs from the last kept value by more than
    PARAM_EPSILON. -/
def dedupAux : ℝ → List ℝ → List ℝ
  | _, [] => []
  | lastKept, q :: rest =>
      if |q - lastKept| > PARAM_EPSILON then q :: dedupAux q rest
      else dedupAux lastKept rest

/-- Deduplication of a parameter list (the `unique` array of
    `computeUserParameters`). -/
def dedupParams : List ℝ → List ℝ
  | [] => []
  | q :: rest => q :: dedupAux q rest

/-- Deformation.ts `computeUserParameters`. -/
def computeUserParameters (points : List Point) : List ℝ :=
  match points with
  | [] => []
  | _ :: _ =>
      if getPathLength points = 0 then [0]
      else
        let unique := dedupParams (rawParameters points)
        if unique.getLastD 0 < backboneLength - PARAM_EPSILON then
          unique ++ [backboneLength]
        else unique

/-- The binary-search loop of Deformation.ts `lowerBound`. -/
def lowerBoundAux (values : List ℝ) (target : ℝ) (low high : ℕ) : ℕ :=
  if h : low < high then
    if values.getD ((low + high) / 2) 0 < target then
      lowerBoundAux values target ((low + high) / 2 + 1) high
    else
      lowerBoundAux values target low ((low + high) / 2)
  else low
termination_by high - low
decreasing_by
· omega
· omega

/-- Deformation.ts `lowerBound`. -/
def lowerBound (values : List ℝ) (target : ℝ) : ℕ :=
  lowerBoundAux values target 0 values.length

/-- The binary-search loop of Deformation.ts `upperBound`. -/
def upperBoundAux (values : List ℝ) (target : ℝ) (low high : ℕ) : ℕ :=
  if h : low < high then
    if values.getD ((low + high) / 2) 0 ≤ target then
      upperBoundAux values target ((low + high) / 2 + 1) high
    else
      upperBoundAux values target low ((low + high) / 2)
  else low
termination_by high - low
decreasing_by
· omega
· omega

/-- Deformation.ts `upperBound`. -/
def upperBound (values : List ℝ) (target : ℝ) : ℕ :=
  upperBoundAux values target 0 values.length

/-- Deformation.ts `interpolatePoint`. -/
def interpolatePoint (prev curr : Point) (prevParam currParam targetParam : ℝ) : Point :=
  if |currParam - prevParam| < PARAM_EPSILON then
    ⟨(prev.x + curr.x) / 2, (prev.y + curr.y) / 2⟩
  else
    let clamped := min (max ((targetParam - prevParam) / (currParam - prevParam)) 0) 1
    ⟨prev.x + (curr.x - prev.x) * clamped, prev.y + (curr.y - prev.y) * clamped⟩

/-- The `{...point}` spread copy used throughout `augmentBrushShape`. -/
def copyPoint (p : Point) : Point := ⟨p.x, p.y⟩

/-- The points inserted by an iteration of the edge loop of
    Deformation.ts `augmentBrushShape`: the user parameters strictly inside
    the parameter span of the edge (with an epsilon margin), interpolated along
    the edge, emitted ascending or descending to follow the edge
    direction. -/
def insertedPoints (userParameters : List ℝ) (prev curr : Point) : List Point :=
  let prevParam := prev.x
  let currParam := curr.x
  let lower := min prevParam currParam + PARAM_EPSILON
  let upper := max prevParam currParam - PARAM_EPSILON
  if upper > lower then
    let startIndex := lowerBound userParameters lower
    let endIndex := upperBound userParameters upper
    if startIndex < endIndex then
      if currParam ≥ prevParam then
        (List.range' startIndex (endIndex - startIndex)).map
          (fun index =>
            interpolatePoint prev curr prevParam currParam (userParameters.getD index 0))
      else
        ((List.range' startIndex (endIndex - startIndex)).reverse).map
          (fun index =>
            interpolatePoint prev curr prevParam currParam (userParameters.getD index 0))
    else []
  else []

/-- The per-edge loop of Deformation.ts `augmentBrushShape`: for each edge,
    push the inserted points and then a copy of the edge end point. -/
def augmentPointsLoop (userParameters : List ℝ) : Point → List Point → List Point
  | _, [] => []
  | prev, curr :: rest =>
      insertedPoints userParameters prev curr ++
        copyPoint curr :: augmentPointsLoop userParameters curr rest

/-- Deformation.ts `augmentBrushShape`. -/
def augmentBrushShape (outline : List BrushShape) (userPathPoints : List Point) :
    List BrushShape :=
  let userParameters := computeUserParameters userPathPoints
  if userParameters.length ≤ 1 then outline
  else
    outline.map (fun shape =>
      match shape.points with
      | p :: q :: rest =>
          { points := copyPoint p :: augmentPointsLoop userParameters p (q :: rest),
            closed := shape.closed }
      | ps => { points := ps.map copyPoint, closed := shape.closed })

/-- Deformation.ts `deformBrush`.  The source defaults are thickness 1 and
    augmentation off; callers pass them explicitly here. -/
def deformBrush (userPathPoints : List Point) (brush : Brush) (thickness : ℝ)
    (brushAugmentation : Bool) : List (List Point) :=
  if userPathPoints.length < 2 then []
  else
    (if brushAugmentation then augmentBrushShape brush.outline userPathPoints
     else brush.outline).map
      (fun shape => shape.points.map (deformPoint userPathPoints thickness))

/-- An absolute path command as produced by the external svg-path-parser
    after `makeAbsolute`: every command carries its end point (x, y); curve
    and close commands also carry their start point (x0, y0), which
    `makeAbsolute` sets to the point where the previous command ended, and
    for a close command (x, y) is the start point of the subpath. -/
inductive Cmd where
  | M (x y : ℝ)
  | L (x y : ℝ)
  | H (x y : ℝ)
  | V (x y : ℝ)
  | C (x0 y0 x1 y1 x2 y2 x y : ℝ)
  | Q (x0 y0 x1 y1 x y : ℝ)
  | Z (x0 y0 x y : ℝ)

/-- PathMath.ts `sampleCubicBezier`. -/
def sampleCubicBezier (p0 p1 p2 p3 : Point) (t : ℝ) : Point :=
  let u := 1 - t
  ⟨u * u * u * p0.x + 3 * (u * u) * t * p1.x + 3 * u * (t * t) * p2.x + t * t * t * p3.x,
   u * u * u * p0.y + 3 * (u * u) * t * p1.y + 3 * u * (t * t) * p2.y + t * t * t * p3.y⟩

/-- PathMath.ts `sampleQuadraticBezier`. -/
def sampleQuadraticBezier (p0 p1 p2 : Point) (t : ℝ) : Point :=
  let u := 1 - t
  ⟨u * u * p0.x + 2 * u * t * p1.x + t * t * p2.x,
   u * u * p0.y + 2 * u * t * p1.y + t * t * p2.y⟩

/-- The sampling loop of the C case of PathMath.ts `pathToPoints`:
    `for (let t = 1; t <= samples; t++)` at u = t / samples. -/
def bezierCSamples (samples : ℕ) (startPoint cp1 cp2 endPoint : Point) : List Point :=
  (List.range' 1 samples).map
    (fun tIdx => sampleCubicBezier startPoint cp1 cp2 endPoint ((tIdx : ℝ) / (samples : ℝ)))

/-- The sampling loop of the Q case of PathMath.ts `pathToPoints`. -/
def bezierQSamples (samples : ℕ) (startPoint cp endPoint : Point) : List Point :=
  (List.range' 1 samples).map
    (fun tIdx => sampleQuadraticBezier startPoint cp endPoint ((tIdx : ℝ) / (samples : ℝ)))

/-- The command loop of PathMath.ts `pathToPoints`.  The first argument of
    the match is `currentPoints` (null encoded as `none`). -/
def pathToPointsLoop (samples : ℕ) : Option (List Point) → List Cmd → List BrushShape
  | some ps, [] => [{ points := ps, closed := false }]
  | none, [] => []
  | currentPoints, Cmd.M x y :: cs =>
      match currentPoints with
      | some ps =>
          { points := ps, closed := false } :: pathToPointsLoop samples (some [⟨x, y⟩]) cs
      | none => pathToPointsLoop samples (some [⟨x, y⟩]) cs
  | none, _ :: cs => pathToPointsLoop samples none cs
  | some ps, Cmd.L x y :: cs => pathToPointsLoop samples (some (ps ++ [⟨x, y⟩])) cs
  | some ps, Cmd.H x y :: cs => pathToPointsLoop samples (some (ps ++ [⟨x, y⟩])) cs
  | some ps, Cmd.V x y :: cs => pathToPointsLoop samples (some (ps ++ [⟨x, y⟩])) cs
  | some ps, Cmd.C x0 y0 x1 y1 x2 y2 x y :: cs =>
      pathToPointsLoop samples
        (some (ps ++ bezierCSamples samples ⟨x0, y0⟩ ⟨x1, y1⟩ ⟨x2, y2⟩ ⟨x, y⟩)) cs
  | some ps, Cmd.Q x0 y0 x1 y1 x y :: cs =>
      pathToPointsLoop samples
        (some (ps ++ bezierQSamples samples ⟨x0, y0⟩ ⟨x1, y1⟩ ⟨x, y⟩)) cs
  | some ps, Cmd.Z x0 y0 x y :: cs =>
      if 0 < ps.length then
        { points := if x0 ≠ x ∨ y0 ≠ y then ps ++ [⟨x, y⟩] else ps, closed := true } ::
          pathToPointsLoop samples none cs
      else pathToPointsLoop samples (some ps) cs

/-- PathMath.ts `pathToPoints` applied to an already-parsed absolute
    command list (the result of the external parseSVG + makeAbsolute). -/
def pathToPointsCmds (samples : ℕ) (commands : List Cmd) : List BrushShape :=
  pathToPointsLoop samples none commands

/-- Character-list splitting on a separator (structural recursion so that
    concrete parses reduce definitionally). -/
def splitOnCharAux (sep : Char) : List Char → List Char → List (List Char)
  | acc, [] => [acc.reverse]
  | acc, c :: cs =>
      if c = sep then acc.reverse :: splitOnCharAux sep [] cs
      else splitOnCharAux sep (c :: acc) cs

/-- Split a character list at every occurrence of `sep`. -/
def splitOnChar (sep : Char) (cs : List Char) : List (List Char) :=
  splitOnCharAux sep [] cs

/-- Decimal digit accumulation for the modelled parser. -/
def parseNatAux : ℕ → List Char → Option ℕ
  | acc, [] => some acc
  | acc, c :: cs =>
      if c.isDigit then parseNatAux (acc * 10 + (c.toNat - 48)) cs else none

/-- Parse a nonempty decimal digit string. -/
def parseNatChars : List Char → Option ℕ
  | [] => none
  | c :: cs => parseNatAux 0 (c :: cs)

/-- Modelled from the spec: coordinate-pair parsing of the external
    svg-path-parser, for the "x,y" form with nonnegative integer
    coordinates. -/
def parseCoords (cs : List Char) : Option (ℝ × ℝ) :=
  match splitOnChar ',' cs with
  | [a, b] =>
      match parseNatChars a, parseNatChars b with
      | some n, some m => some ((n : ℝ), (m : ℝ))
      | _, _ => none
  | _ => none

/-- Modelled from the spec: the external svg-path-parser parseSVG +
    makeAbsolute for space-separated absolute M/L/Z tokens.  It threads the
    current position and the subpath start so that a close command receives
    (x0, y0) = current position and (x, y) = subpath start, exactly as
    makeAbsolute documents. -/
def parseTokensAux : ℝ × ℝ → Option (ℝ × ℝ) → List (List Char) → Option (List Cmd)
  | _, _, [] => some []
  | cur, start, tok :: toks =>
      match tok with
      | 'M' :: cs =>
          match parseCoords cs with
          | some (x, y) =>
              match parseTokensAux (x, y) (some (x, y)) toks with
              | some cmds => some (Cmd.M x y :: cmds)
              | none => none
          | none => none
      | 'L' :: cs =>
          match parseCoords cs with
          | some (x, y) =>
              match parseTokensAux (x, y) start toks with
              | some cmds => some (Cmd.L x y :: cmds)
              | none => none
          | none => none
      | ['Z'] =>
          match start with
          | some (sx, sy) =>
              match parseTokensAux (sx, sy) start toks with
              | some cmds => some (Cmd.Z cur.1 cur.2 sx sy :: cmds)
              | none => none
          | none => none
      | _ => none

/-- Modelled from the spec: decoding of a vector-path string into absolute
    commands (external svg-path-parser, M/L/Z subset). -/
def parseSVGAbs (pathData : String) : Option (List Cmd) :=
  parseTokensAux (0, 0) none (splitOnChar ' ' pathData.data)

/-- PathMath.ts `pathToPoints` on a vector-path string; `none` corresponds
    to the MalformedPathError the external parser throws. -/
def pathToPoints (pathData : String) (samples : ℕ) : Option (List BrushShape) :=
  (parseSVGAbs pathData).map (pathToPointsCmds samples)

/-- The external dependencies of the encoders: simplify-js line
    simplification and JS number-to-string formatting, abstracted as
    parameters. -/
structure ExtDeps where
  simplify : List Point → ℝ → List Point
  fmt : ℝ → String

/-- The L-segment loop of PathMath.ts `pointsToPath`. -/
def pointsToPathAux (ext : ExtDeps) : List Point → String
  | [] => ""
  | p :: rest => " L " ++ ext.fmt p.x ++ " " ++ ext.fmt p.y ++ pointsToPathAux ext rest

/-- PathMath.ts `pointsToPath`. -/
def pointsToPath (ext : ExtDeps) (points : List Point) : String :=
  match points with
  | [] => ""
  | p :: rest => "M " ++ ext.fmt p.x ++ " " ++ ext.fmt p.y ++ pointsToPathAux ext rest

/-- The Q-segment loop of PathMath.ts `pointsToSmoothPath`: one quadratic
    per interior point, ending at the midpoint to the successor. -/
def qSegsAux (ext : ExtDeps) : List Point → String
  | current :: next :: rest =>
      " Q " ++ ext.fmt current.x ++ " " ++ ext.fmt current.y ++ " " ++
        ext.fmt ((current.x + next.x) / 2) ++ " " ++ ext.fmt ((current.y + next.y) / 2) ++
        qSegsAux ext (next :: rest)
  | _ => ""

/-- PathMath.ts `pointsToSmoothPath` (default tolerance 0.3 passed
    explicitly by callers). -/
def pointsToSmoothPath (ext : ExtDeps) (rawPoints : List Point)
    (simplificationTolerance : ℝ) : String :=
  match rawPoints with
  | [] => ""
  | [p] => "M " ++ ext.fmt p.x ++ " " ++ ext.fmt p.y
  | [p, q] =>
      "M " ++ ext.fmt p.x ++ " " ++ ext.fmt p.y ++ " L " ++ ext.fmt q.x ++ " " ++ ext.fmt q.y
  | _ =>
      let points := ext.simplify rawPoints simplificationTolerance
      "M " ++ ext.fmt (points.headD ⟨0, 0⟩).x ++ " " ++ ext.fmt (points.headD ⟨0, 0⟩).y ++
        qSegsAux ext points.tail ++
        " T " ++ ext.fmt (points.getLastD ⟨0, 0⟩).x ++ " " ++
        ext.fmt (points.getLastD ⟨0, 0⟩).y

/-- PathMath.ts `shapesToSmoothPath`. -/
def shapesToSmoothPath (ext : ExtDeps) : List BrushShape → String
  | [] => ""
  | shape :: rest =>
      pointsToSmoothPath ext shape.points (3 / 10) ++ (if shape.closed then " Z" else "") ++
        shapesToSmoothPath ext rest

/-- An entry of the FigmaBrushes catalog (the data file itself is not under
    src/, so entries are abstract; the path is kept at the parsed
    absolute-command level). -/
structure CatalogEntry where
  name : String
  path : List Cmd
  offset : ℝ

/-- BrushDefinitions.ts `createPathBrush` (on parsed commands). -/
def createPathBrush (ext : ExtDeps) (pathCmds : List Cmd) (offset : ℝ) (name : String) : Brush :=
  let shapes := (pathToPointsCmds 2 pathCmds).map
    (fun shape =>
      { points := shape.points.map (fun point => (⟨point.x, point.y - offset⟩ : Point)),
        closed := shape.closed })
  { name := name, outline := shapes, path := shapesToSmoothPath ext shapes }

/-- BrushDefinitions.ts `getBrush`; the thrown `Brush "name" not found`
    error becomes the error case of Except. -/
def getBrush (ext : ExtDeps) (catalog : List CatalogEntry) (name : String) : Except String Brush :=
  match catalog.find? (fun brush => brush.name == name) with
  | none => Except.error ("Brush \"" ++ name ++ "\" not found")
  | some brushDetails =>
      Except.ok (createPathBrush ext brushDetails.path brushDetails.offset brushDetails.name)

/-- DeformationOptions from Deformation.ts; every field is optional at the
    call sites of createBrushStroke. -/
structure DeformationOptions where
  brush : Option (Brush ⊕ String)
  strokeWidth : Option ℝ
  simplificationTolerance : Option ℝ
  brushAugmentation : Option Bool

/-- The input normalization of Deformation.ts `createBrushStroke`: a string
    is decoded and the shapes flattened into one point list. -/
def resolveInputPoints (pathOrPoints : String ⊕ List Point) : Except String (List Point) :=
  match pathOrPoints with
  | Sum.inl pathData =>
      match pathToPoints pathData 2 with
      | some shapes => Except.ok (List.flatten (shapes.map BrushShape.points))
      | none => Except.error ("Malformed path: " ++ pathData)
  | Sum.inr points => Except.ok points

/-- The brush resolution of Deformation.ts `createBrushStroke`: an explicit
    Brush object is used as is, a name is looked up, and an absent brush
    option falls back to the catalog name "Figma Blockbuster". -/
def resolveBrush (ext : ExtDeps) (catalog : List CatalogEntry)
    (options : Option DeformationOptions) : Except String Brush :=
  match options with
  | some opts =>
      match opts.brush with
      | some (Sum.inl brushObj) => Except.ok brushObj
      | some (Sum.inr name) => getBrush ext catalog name
      | none => getBrush ext catalog "Figma Blockbuster"
  | none => getBrush ext catalog "Figma Blockbuster"

/-- The assembly loop of Deformation.ts `createBrushStroke`: encode each
    deformed shape (polyline when augmented, smoothed otherwise) and append
    a close command when the brush outline shape at the same index is
    closed. -/
def assembleLoop (ext : ExtDeps) (brushAugmentation : Bool) (tolerance : ℝ)
    (outline : List BrushShape) : ℕ → List (List Point) → String
  | _, [] => ""
  | i, shapePoints :: rest =>
      (if brushAugmentation then pointsToPath ext shapePoints
       else pointsToSmoothPath ext shapePoints tolerance) ++
        (if (outline.getD i { points := [], closed := false }).closed then " Z" else "") ++
        assembleLoop ext brushAugmentation tolerance outline (i + 1) rest

/-- The tail of Deformation.ts `createBrushStroke` after input and brush
    resolution: deform, then assemble the output path string.  Absent
    options take the source defaults (strokeWidth 1, tolerance 0.3,
    augmentation off). -/
def strokeWithBrush (ext : ExtDeps) (points : List Point) (brush : Brush)
    (options : Option DeformationOptions) : String :=
  assembleLoop ext ((options.bind DeformationOptions.brushAugmentation).getD false)
    ((options.bind DeformationOptions.simplificationTolerance).getD (3 / 10))
    brush.outline 0
    (deformBrush points brush ((options.bind DeformationOptions.strokeWidth).getD 1)
      ((options.bind DeformationOptions.brushAugmentation).getD false))

/-- Deformation.ts `createBrushStroke`; a thrown parse or lookup error
    propagates to the caller. -/
def createBrushStroke (ext : ExtDeps) (catalog : List CatalogEntry)
    (pathOrPoints : String ⊕ List Point) (options : Option DeformationOptions) :
    Except String String :=
  match resolveInputPoints pathOrPoints with
  | Except.error e => Except.error e
  | Except.ok points =>
      match resolveBrush ext catalog options with
      | Except.error e => Except.error e
      | Except.ok brush => Except.ok (strokeWithBrush ext points brush options)

/-- Number of move commands in a command list (formalization vocabulary). -/
def countM : List Cmd → ℕ
  | [] => 0
  | Cmd.M _ _ :: cs => countM cs + 1
  | _ :: cs => countM cs

/-- Number of close commands in a command list (formalization
    vocabulary). -/
def countZ : List Cmd → ℕ
  | [] => 0
  | Cmd.Z _ _ _ _ :: cs => countZ cs + 1
  | _ :: cs => countZ cs

/-- Number of shapes flagged closed (formalization vocabulary). -/
def closedCount (shapes : List BrushShape) : ℕ :=
  (shapes.filter (fun s => s.closed)).length

/-- A concrete instance of the abstracted external dependencies, used for
    witnesses: identity simplification and trivial formatting. -/
def ext0 : ExtDeps := ⟨fun ps _ => ps, fun _ => ""⟩

/-- A concrete one-entry catalog used for witnesses. -/
def catalog0 : List CatalogEntry := [⟨"Figma Blockbuster", [], 0⟩]

/-- C10: the geometry sampling operations are total on degenerate inputs:
    `getPointAt` on an empty list returns (0,0) and on a single-point list
    returns that point for every t; `getTangentAt` on fewer than 2 points
    returns (1,0), so `getNormalAt` returns (0,1). -/
theorem degenerate_sampling_total :
    (∀ t : ℝ, getPointAt [] t = ⟨0, 0⟩) ∧
    (∀ (p : Point) (t : ℝ), getPointAt [p] t = p) ∧
    (∀ (ps : List Point) (t : ℝ), ps.length < 2 → getTangentAt ps t = ⟨1, 0⟩) ∧
    (∀ (ps : List Point) (t : ℝ), ps.length < 2 → getNormalAt ps t = ⟨0, 1⟩) := by
  have htan : ∀ (ps : List Point) (t : ℝ), ps.length < 2 → getTangentAt ps t = ⟨1, 0⟩ := by
    intro ps t h
    match ps with
    | [] => rfl
    | [p] => rfl
    | p :: q :: rest => simp at h; omega
  refine ⟨fun t => rfl, fun p t => rfl, htan, ?_⟩
  intro ps t h
  unfold getNormalAt
  rw [htan ps t h]
  simp

/-- Witness for C10 at concrete degenerate inputs. -/
theorem degenerate_sampling_total_witness :
    getPointAt [] 0 = ⟨0, 0⟩ ∧
    getPointAt [(⟨3, 4⟩ : Point)] (1 / 2) = ⟨3, 4⟩ ∧
    (([(⟨3, 4⟩ : Point)] : List Point).length < 2 ∧
      getTangentAt [(⟨3, 4⟩ : Point)] (1 / 2) = ⟨1, 0⟩) ∧
    (([] : List Point).length < 2 ∧ getNormalAt [] (1 / 2) = ⟨0, 1⟩) :=
  ⟨degenerate_sampling_total.1 0,
   degenerate_sampling_total.2.1 ⟨3, 4⟩ (1 / 2),
   ⟨by decide, degenerate_sampling_total.2.2.1 [⟨3, 4⟩] (1 / 2) (by decide)⟩,
   ⟨by decide, degenerate_sampling_total.2.2.2 [] (1 / 2) (by decide)⟩⟩

/-- C4: deformBrush on a UserPath with fewer than 2 points returns an empty
    list of shapes, for every brush, thickness and augmentation setting. -/
theorem deformBrush_short_path_empty :
    ∀ (userPathPoints : List Point) (brush : Brush) (thickness : ℝ) (aug : Bool),
      userPathPoints.length < 2 → deformBrush userPathPoints brush thickness aug = [] := by
  intro ps brush w aug h
  unfold deformBrush
  rw [if_pos h]

/-- Witness for C4 at a concrete one-point path. -/
theorem deformBrush_short_path_empty_witness :
    ([(⟨5, 7⟩ : Point)] : List Point).length < 2 ∧
      deformBrush [(⟨5, 7⟩ : Point)] ⟨"b", [], ""⟩ 2 true = [] :=
  ⟨by decide, deformBrush_short_path_empty [⟨5, 7⟩] ⟨"b", [], ""⟩ 2 true (by decide)⟩

/-- Helper: getBrush errors exactly when no catalog entry carries the
    name. -/
theorem getBrush_not_found (ext : ExtDeps) (catalog : List CatalogEntry) (name : String)
    (h : ∀ e ∈ catalog, e.name ≠ name) :
    getBrush ext catalog name = Except.error ("Brush \"" ++ name ++ "\" not found") := by
  unfold getBrush
  have hf : catalog.find? (fun brush => brush.name == name) = none := by
    rw [List.find?_eq_none]
    intro e he
    simpa using h e he
  rw [hf]

/-- Helper: getBrush succeeds when some catalog entry carries the name. -/
theorem getBrush_found (ext : ExtDeps) (catalog : List CatalogEntry) (name : String)
    (h : ∃ e ∈ catalog, e.name = name) :
    ∃ b, getBrush ext catalog name = Except.ok b := by
  obtain ⟨e, he, hn⟩ := h
  unfold getBrush
  cases hf : catalog.find? (fun brush => brush.name == name) with
  | none =>
      have := List.find?_eq_none.mp hf e he
      simp [hn] at this
  | some d => exact ⟨_, rfl⟩

/-- C8: looking up a brush name absent from the catalog fails with a
    "brush not found" error naming the brush, and looking up a present name
    returns a Brush without error. -/
theorem getBrush_catalog_lookup :
    ∀ (ext : ExtDeps) (catalog : List CatalogEntry) (name : String),
      ((∀ e ∈ catalog, e.name ≠ name) →
        getBrush ext catalog name = Except.error ("Brush \"" ++ name ++ "\" not found")) ∧
      ((∃ e ∈ catalog, e.name = name) → ∃ b, getBrush ext catalog name = Except.ok b) :=
  fun ext catalog name =>
    ⟨getBrush_not_found ext catalog name, getBrush_found ext catalog name⟩

/-- Witness for C8 on a concrete catalog: a missing name errors, a present
    name succeeds. -/
theorem getBrush_catalog_lookup_witness :
    (∀ e ∈ catalog0, e.name ≠ "Missing") ∧
    getBrush ext0 catalog0 "Missing" = Except.error ("Brush \"" ++ "Missing" ++ "\" not found") ∧
    (∃ e ∈ catalog0, e.name = "Figma Blockbuster") ∧
    (∃ b, getBrush ext0 catalog0 "Figma Blockbuster" = Except.ok b) :=
  ⟨by decide,
   (getBrush_catalog_lookup ext0 catalog0 "Missing").1 (by decide),
   by decide,
   (getBrush_catalog_lookup ext0 catalog0 "Figma Blockbuster").2 (by decide)⟩

/-- C9: createBrushStroke with no brush option (options absent or its brush
    field absent) resolves the catalog brush named "Figma Blockbuster" and
    deforms with it instead of failing, whenever that name is in the
    catalog. -/
theorem createBrushStroke_default_brush :
    ∀ (ext : ExtDeps) (catalog : List CatalogEntry) (pts : List Point)
      (options : Option DeformationOptions),
      (options = none ∨ ∃ opts, options = some opts ∧ opts.brush = none) →
      (∃ e ∈ catalog, e.name = "Figma Blockbuster") →
      ∃ b, getBrush ext catalog "Figma Blockbuster" = Except.ok b ∧
        createBrushStroke ext catalog (Sum.inr pts) options =
          Except.ok (strokeWithBrush ext pts b options) := by
  intro ext catalog pts options hopt hmem
  obtain ⟨b, hb⟩ := getBrush_found ext catalog "Figma Blockbuster" hmem
  refine ⟨b, hb, ?_⟩
  have hres : resolveBrush ext catalog options = getBrush ext catalog "Figma Blockbuster" := by
    rcases hopt with h | ⟨opts, h, hbr⟩
    · rw [h]; rfl
    · subst h; simp only [resolveBrush, hbr]
  unfold createBrushStroke resolveInputPoints
  rw [hres, hb]

/-- Witness for C9 at a concrete catalog and empty options. -/
theorem createBrushStroke_default_brush_witness :
    ((none : Option DeformationOptions) = none ∨
      ∃ opts, (none : Option DeformationOptions) = some opts ∧ opts.brush = none) ∧
    (∃ e ∈ catalog0, e.name = "Figma Blockbuster") ∧
    ∃ b, getBrush ext0 catalog0 "Figma Blockbuster" = Except.ok b ∧
      createBrushStroke ext0 catalog0 (Sum.inr [(⟨0, 0⟩ : Point), ⟨1, 0⟩]) none =
        Except.ok (strokeWithBrush ext0 [(⟨0, 0⟩ : Point), ⟨1, 0⟩] b none) :=
  ⟨Or.inl rfl, by decide,
   createBrushStroke_default_brush ext0 catalog0 [⟨0, 0⟩, ⟨1, 0⟩] none (Or.inl rfl) (by decide)⟩

/-- Helper: evaluate a square root at a perfect square. -/
theorem sqrt_of_sq (c x : ℝ) (hc : 0 ≤ c) (h : x = c * c) : Real.sqrt x = c := by
  rw [h, show c * c = c ^ 2 from (sq c).symm, Real.sqrt_sq hc]

/-- Helper: sqrt 2500 = 50. -/
theorem sqrt2500 : Real.sqrt 2500 = 50 := sqrt_of_sq 50 2500 (by norm_num) (by norm_num)

/-- C3: deforming the closed rectangle brush [(0,-5),(100,-5),(100,5),(0,5)]
    along the straight backbone-matching UserPath [(0,0),(50,0),(100,0)]
    with strokeWidth 1 reproduces the four points unchanged. -/
theorem deformBrush_identity_on_backbone :
    deformBrush [⟨0, 0⟩, ⟨50, 0⟩, ⟨100, 0⟩]
        ⟨"rect", [⟨[⟨0, -5⟩, ⟨100, -5⟩, ⟨100, 5⟩, ⟨0, 5⟩], true⟩], ""⟩ 1 false =
      [[⟨0, -5⟩, ⟨100, -5⟩, ⟨100, 5⟩, ⟨0, 5⟩]] := by
  norm_num [deformBrush, deformPoint, projectPointToBackbone, getPointAt, getNormalAt,
    getTangentAt, tangentLoop, getPathLength, pathLenAux, backboneLength, sqrt2500,
    min_def, max_def, List.getLast]

/-- Helper: sqrt 2 is greater than 1. -/
theorem one_lt_sqrt_two : (1 : ℝ) < Real.sqrt 2 := by
  nlinarith [Real.sq_sqrt (show (0 : ℝ) ≤ 2 by norm_num), Real.sqrt_nonneg 2]

/-- Counterexample to C1: for the path [(0,0),(1,0),(1,1)] the arc-length
    sample at t = 1/2 falls exactly on the interior vertex (1,0), yet
    getTangentAt returns the incoming direction (1,0), not the renormalized
    average of the incoming and outgoing directions. -/
theorem getTangentAt_vertex_not_averaged :
    getTangentAt [⟨0, 0⟩, ⟨1, 0⟩, ⟨1, 1⟩] (1 / 2) = ⟨1, 0⟩ ∧
    getTangentAt [⟨0, 0⟩, ⟨1, 0⟩, ⟨1, 1⟩] (1 / 2) ≠
      specAveragedTangent (segDir ⟨0, 0⟩ ⟨1, 0⟩) (segDir ⟨1, 0⟩ ⟨1, 1⟩) := by
  have heval : getTangentAt [(⟨0, 0⟩ : Point), ⟨1, 0⟩, ⟨1, 1⟩] (1 / 2) = ⟨1, 0⟩ := by
    norm_num [getTangentAt, tangentLoop, getPathLength, pathLenAux, Real.sqrt_one]
  refine ⟨heval, ?_⟩
  rw [heval]
  have hdirs : specAveragedTangent (segDir ⟨0, 0⟩ ⟨1, 0⟩) (segDir ⟨1, 0⟩ ⟨1, 1⟩) =
      specAveragedTangent ⟨1, 0⟩ ⟨0, 1⟩ := by
    norm_num [segDir, segLen, Real.sqrt_one]
  rw [hdirs]
  unfold specAveragedTangent
  intro h
  have hx : (1 : ℝ) = (1 + 0) / Real.sqrt ((1 + 0) * (1 + 0) + (0 + 1) * (0 + 1)) :=
    congrArg Point.x h
  have hs : Real.sqrt ((1 + 0) * (1 + 0) + (0 + 1) * (0 + 1)) = Real.sqrt 2 := by norm_num
  rw [hs] at hx
  have h2 := one_lt_sqrt_two
  have hpos : (0 : ℝ) < Real.sqrt 2 := by linarith
  rw [eq_div_iff (ne_of_gt hpos)] at hx
  nlinarith

/-- Helper: the length loop computes a sum of segment lengths. -/
theorem pathLenAux_cons (prev curr : Point) (rest : List Point) :
    pathLenAux prev (curr :: rest) = segLen prev curr + pathLenAux curr rest := rfl

/-- Helper: the length loop is nonnegative. -/
theorem pathLenAux_nonneg : ∀ (rest : List Point) (prev : Point), 0 ≤ pathLenAux prev rest := by
  intro rest
  induction rest with
  | nil => intro prev; exact le_refl 0
  | cons curr rest ih =>
      intro prev
      rw [pathLenAux_cons]
      have := Real.sqrt_nonneg ((curr.x - prev.x) * (curr.x - prev.x) +
        (curr.y - prev.y) * (curr.y - prev.y))
      have h2 := ih curr
      unfold segLen
      linarith

/-- Helper: with positive segments the length up to the final point is
    positive. -/
theorem pathLenAux_pos : ∀ (xs : List Point) (prev v : Point),
    segsPos prev (xs ++ [v]) → 0 < pathLenAux prev (xs ++ [v]) := by
  intro xs
  induction xs with
  | nil =>
      intro prev v h
      rw [List.nil_append, pathLenAux_cons]
      have h1 : 0 < segLen prev v := h.1
      have h2 : (0 : ℝ) ≤ pathLenAux v [] := pathLenAux_nonneg [] v
      linarith
  | cons a xs ih =>
      intro prev v h
      rw [List.cons_append, pathLenAux_cons]
      have h1 : 0 < segLen prev a := h.1
      have h2 := ih a v h.2
      linarith

/-- Helper: unfolding getTangentAt on a path of at least two points. -/
theorem getTangentAt_cons₂ (p q : Point) (rest : List Point) (t : ℝ) :
    getTangentAt (p :: q :: rest) t =
      tangentLoop (t * getPathLength (p :: q :: rest)) 0 p (q :: rest) := rfl

/-- Helper: when the target distance is exactly the accumulated distance at
    the end of the segment chain `xs ++ [v]` and all those segments have
    positive length, the tangent loop stops at the segment entering `v` and
    returns its direction, whatever follows after `v`. -/
theorem tangentLoop_at_vertex : ∀ (xs : List Point) (prev v : Point) (ys : List Point)
    (currentDistance : ℝ), segsPos prev (xs ++ [v]) →
    tangentLoop (currentDistance + pathLenAux prev (xs ++ [v])) currentDistance prev
        (xs ++ v :: ys) =
      segDir (xs.getLastD prev) v := by
  intro xs
  induction xs with
  | nil =>
      intro prev v ys cur h
      have hl : 0 < segLen prev v := h.1
      rw [List.nil_append, List.nil_append, pathLenAux_cons]
      show (if (cur + segLen prev v ≥ cur + (segLen prev v + pathLenAux v []) ∨
              ys.isEmpty) ∧ 0 < segLen prev v then
          (⟨(v.x - prev.x) / segLen prev v, (v.y - prev.y) / segLen prev v⟩ : Point)
        else tangentLoop (cur + (segLen prev v + pathLenAux v [])) (cur + segLen prev v) v ys) =
        segDir (List.getLastD [] prev) v
      rw [if_pos ⟨Or.inl (by show _ ≥ _; unfold pathLenAux; linarith), hl⟩]
      rfl
  | cons a xs ih =>
      intro prev v ys cur h
      have hl : 0 < segLen prev a := h.1
      have hrest : 0 < pathLenAux a (xs ++ [v]) := pathLenAux_pos xs a v h.2
      rw [List.cons_append, List.cons_append, pathLenAux_cons]
      show (if (cur + segLen prev a ≥ cur + (segLen prev a + pathLenAux a (xs ++ [v])) ∨
              (xs ++ v :: ys).isEmpty) ∧ 0 < segLen prev a then
          (⟨(a.x - prev.x) / segLen prev a, (a.y - prev.y) / segLen prev a⟩ : Point)
        else tangentLoop (cur + (segLen prev a + pathLenAux a (xs ++ [v])))
          (cur + segLen prev a) a (xs ++ v :: ys)) =
        segDir ((a :: xs).getLastD prev) v
      rw [if_neg ?hneg]
      case hneg =>
        rintro ⟨h1 | h2, _⟩
        · linarith
        · rcases xs with _ | ⟨b, xs⟩ <;> simp at h2
      rw [show cur + (segLen prev a + pathLenAux a (xs ++ [v])) =
          cur + segLen prev a + pathLenAux a (xs ++ [v]) by ring]
      rw [ih a v ys (cur + segLen prev a) h.2]
      rw [List.getLastD_cons]

/-- C1 (amended): when the arc-length sample at parameter t falls exactly on
    a path vertex v (interior or final), and the segments up to v have
    positive length, getTangentAt returns the normalized direction of the
    segment entering v (the incoming one-sided direction, not an average);
    and a sample at or before the path start returns the one-sided
    direction of the first segment. -/
theorem getTangentAt_vertex_incoming :
    (∀ (p : Point) (xs : List Point) (v : Point) (ys : List Point) (t : ℝ),
      segsPos p (xs ++ [v]) →
      t * getPathLength (p :: (xs ++ v :: ys)) = pathLenAux p (xs ++ [v]) →
      getTangentAt (p :: (xs ++ v :: ys)) t = segDir (xs.getLastD p) v) ∧
    (∀ (a b : Point) (rest : List Point) (t : ℝ),
      t * getPathLength (a :: b :: rest) ≤ 0 → 0 < segLen a b →
      getTangentAt (a :: b :: rest) t = segDir a b) := by
  constructor
  · intro p xs v ys t hpos ht
    have hshape : getTangentAt (p :: (xs ++ v :: ys)) t =
        tangentLoop (t * getPathLength (p :: (xs ++ v :: ys))) 0 p (xs ++ v :: ys) := by
      rcases xs with _ | ⟨a, xs⟩
      · exact getTangentAt_cons₂ p v ys t
      · exact getTangentAt_cons₂ p a (xs ++ v :: ys) t
    rw [hshape, ht]
    have := tangentLoop_at_vertex xs p v ys 0 hpos
    rw [zero_add] at this
    exact this
  · intro a b rest t ht hl
    rw [getTangentAt_cons₂]
    show (if (0 + segLen a b ≥ t * getPathLength (a :: b :: rest) ∨ rest.isEmpty) ∧
        0 < segLen a b then
        (⟨(b.x - a.x) / segLen a b, (b.y - a.y) / segLen a b⟩ : Point)
      else tangentLoop (t * getPathLength (a :: b :: rest)) (0 + segLen a b) b rest) =
      segDir a b
    rw [if_pos ⟨Or.inl (by linarith), hl⟩]
    rfl

/-- Witness for C1 at the concrete path [(0,0),(1,0),(1,1)]: the interior
    vertex sample at t = 1/2 and the start sample at t = 0. -/
theorem getTangentAt_vertex_incoming_witness :
    (segsPos ⟨0, 0⟩ ([] ++ [(⟨1, 0⟩ : Point)]) ∧
      (1 / 2 : ℝ) * getPathLength [⟨0, 0⟩, ⟨1, 0⟩, ⟨1, 1⟩] = pathLenAux ⟨0, 0⟩ [⟨1, 0⟩] ∧
      getTangentAt [⟨0, 0⟩, ⟨1, 0⟩, ⟨1, 1⟩] (1 / 2) = segDir ⟨0, 0⟩ ⟨1, 0⟩) ∧
    ((0 : ℝ) * getPathLength [⟨0, 0⟩, ⟨1, 0⟩, ⟨1, 1⟩] ≤ 0 ∧
      0 < segLen ⟨0, 0⟩ ⟨1, 0⟩ ∧
      getTangentAt [⟨0, 0⟩, ⟨1, 0⟩, ⟨1, 1⟩] 0 = segDir ⟨0, 0⟩ ⟨1, 0⟩) := by
  have hpos : segsPos (⟨0, 0⟩ : Point) ([] ++ [(⟨1, 0⟩ : Point)]) := by
    refine ⟨?_, trivial⟩
    norm_num [segLen, Real.sqrt_one]
  have ht : (1 / 2 : ℝ) * getPathLength [⟨0, 0⟩, ⟨1, 0⟩, ⟨1, 1⟩] =
      pathLenAux ⟨0, 0⟩ [⟨1, 0⟩] := by
    norm_num [getPathLength, pathLenAux, Real.sqrt_one]
  have hl : 0 < segLen (⟨0, 0⟩ : Point) ⟨1, 0⟩ := by norm_num [segLen, Real.sqrt_one]
  have ht0 : (0 : ℝ) * getPathLength [⟨0, 0⟩, ⟨1, 0⟩, ⟨1, 1⟩] ≤ 0 := by norm_num
  exact ⟨⟨hpos, ht, getTangentAt_vertex_incoming.1 ⟨0, 0⟩ [] ⟨1, 0⟩ [⟨1, 1⟩] (1 / 2) hpos ht⟩,
    ⟨ht0, hl, getTangentAt_vertex_incoming.2 ⟨0, 0⟩ ⟨1, 0⟩ [⟨1, 1⟩] 0 ht0 hl⟩⟩

/-- Helper: sqrt (4 s) = 2 sqrt s. -/
theorem sqrt_four_mul (s : ℝ) : Real.sqrt (4 * s) = 2 * Real.sqrt s := by
  rw [show (4 : ℝ) = 2 ^ 2 by norm_num, Real.sqrt_mul (by positivity), Real.sqrt_sq (by norm_num)]

/-- C5: doubling the stroke width doubles the distance of the deformed point from
    the UserPath point sampled at the same backbone parameter; the sampled
    along-path position (the same getPointAt term) is unchanged. -/
theorem deformPoint_strokeWidth_doubling :
    ∀ (userPathPoints : List Point) (brushPoint : Point) (w : ℝ),
      2 ≤ userPathPoints.length →
      distPt (deformPoint userPathPoints (2 * w) brushPoint)
          (getPointAt userPathPoints (projectPointToBackbone brushPoint).parameter) =
        2 * distPt (deformPoint userPathPoints w brushPoint)
            (getPointAt userPathPoints (projectPointToBackbone brushPoint).parameter) := by
  intro path bp w _h
  simp only [deformPoint, distPt]
  set px := (getPointAt path (projectPointToBackbone bp).parameter).x
  set py := (getPointAt path (projectPointToBackbone bp).parameter).y
  set nx := (getNormalAt path (projectPointToBackbone bp).parameter).x
  set ny := (getNormalAt path (projectPointToBackbone bp).parameter).y
  set oy := (projectPointToBackbone bp).offset.y
  rw [show (px + nx * (oy * (2 * w)) - px) * (px + nx * (oy * (2 * w)) - px) +
      (py + ny * (oy * (2 * w)) - py) * (py + ny * (oy * (2 * w)) - py) =
      4 * ((px + nx * (oy * w) - px) * (px + nx * (oy * w) - px) +
        (py + ny * (oy * w) - py) * (py + ny * (oy * w) - py)) from by ring]
  rw [sqrt_four_mul]

/-- Witness for C5 at a concrete path, brush point and width. -/
theorem deformPoint_strokeWidth_doubling_witness :
    ([(⟨0, 0⟩ : Point), ⟨1, 0⟩] : List Point).length ≥ 2 ∧
      distPt (deformPoint [⟨0, 0⟩, ⟨1, 0⟩] (2 * 1) ⟨0, 3⟩)
          (getPointAt [⟨0, 0⟩, ⟨1, 0⟩] (projectPointToBackbone ⟨0, 3⟩).parameter) =
        2 * distPt (deformPoint [⟨0, 0⟩, ⟨1, 0⟩] 1 ⟨0, 3⟩)
            (getPointAt [⟨0, 0⟩, ⟨1, 0⟩] (projectPointToBackbone ⟨0, 3⟩).parameter) :=
  ⟨by decide, deformPoint_strokeWidth_doubling [⟨0, 0⟩, ⟨1, 0⟩] ⟨0, 3⟩ 1 (by decide)⟩

/-- Helper: with no close command every emitted shape is open. -/
theorem pathToPointsLoop_noZ_closed : ∀ (cmds : List Cmd) (samples : ℕ)
    (cur : Option (List Point)), countZ cmds = 0 →
    ∀ shape ∈ pathToPointsLoop samples cur cmds, shape.closed = false := by
  intro cmds
  induction cmds with
  | nil =>
      intro samples cur _h shape hs
      rcases cur with _ | ps
      · simp [pathToPointsLoop] at hs
      · simp [pathToPointsLoop] at hs
        rw [hs]
  | cons c cs ih =>
      intro samples cur h shape hs
      cases c with
      | M x y =>
          have h' : countZ cs = 0 := by simpa [countZ] using h
          rcases cur with _ | ps
          · exact ih samples (some [⟨x, y⟩]) h' shape hs
          · simp only [pathToPointsLoop, List.mem_cons] at hs
            rcases hs with rfl | hs
            · rfl
            · exact ih samples (some [⟨x, y⟩]) h' shape hs
      | L x y =>
          have h' : countZ cs = 0 := by simpa [countZ] using h
          rcases cur with _ | ps
          · exact ih samples none h' shape hs
          · exact ih samples (some (ps ++ [⟨x, y⟩])) h' shape hs
      | H x y =>
          have h' : countZ cs = 0 := by simpa [countZ] using h
          rcases cur with _ | ps
          · exact ih samples none h' shape hs
          · exact ih samples (some (ps ++ [⟨x, y⟩])) h' shape hs
      | V x y =>
          have h' : countZ cs = 0 := by simpa [countZ] using h
          rcases cur with _ | ps
          · exact ih samples none h' shape hs
          · exact ih samples (some (ps ++ [⟨x, y⟩])) h' shape hs
      | C x0 y0 x1 y1 x2 y2 x y =>
          have h' : countZ cs = 0 := by simpa [countZ] using h
          rcases cur with _ | ps
          · exact ih samples none h' shape hs
          · exact ih samples
              (some (ps ++ bezierCSamples samples ⟨x0, y0⟩ ⟨x1, y1⟩ ⟨x2, y2⟩ ⟨x, y⟩)) h' shape hs
      | Q x0 y0 x1 y1 x y =>
          have h' : countZ cs = 0 := by simpa [countZ] using h
          rcases cur with _ | ps
          · exact ih samples none h' shape hs
          · exact ih samples
              (some (ps ++ bezierQSamples samples ⟨x0, y0⟩ ⟨x1, y1⟩ ⟨x, y⟩)) h' shape hs
      | Z x0 y0 x y => simp [countZ] at h

/-- Helper: with no close command the number of emitted shapes is the number
    of move commands, plus one for a pending open shape. -/
theorem pathToPointsLoop_noZ_length : ∀ (cmds : List Cmd) (samples : ℕ)
    (cur : Option (List Point)), countZ cmds = 0 →
    (pathToPointsLoop samples cur cmds).length =
      countM cmds + (if cur.isSome then 1 else 0) := by
  intro cmds
  induction cmds with
  | nil =>
      intro samples cur _h
      rcases cur with _ | ps <;> simp [pathToPointsLoop, countM]
  | cons c cs ih =>
      intro samples cur h
      cases c with
      | M x y =>
          have h' : countZ cs = 0 := by simpa [countZ] using h
          rcases cur with _ | ps
          · rw [show pathToPointsLoop samples none (Cmd.M x y :: cs) =
                pathToPointsLoop samples (some [⟨x, y⟩]) cs from rfl]
            rw [ih samples (some [⟨x, y⟩]) h']
            simp [countM]
          · rw [show pathToPointsLoop samples (some ps) (Cmd.M x y :: cs) =
                { points := ps, closed := false } ::
                  pathToPointsLoop samples (some [⟨x, y⟩]) cs from rfl]
            rw [List.length_cons, ih samples (some [⟨x, y⟩]) h']
            simp [countM]
      | L x y =>
          have h' : countZ cs = 0 := by simpa [countZ] using h
          rcases cur with _ | ps
          · rw [show pathToPointsLoop samples none (Cmd.L x y :: cs) =
                pathToPointsLoop samples none cs from rfl, ih samples none h']
            simp [countM]
          · rw [show pathToPointsLoop samples (some ps) (Cmd.L x y :: cs) =
                pathToPointsLoop samples (some (ps ++ [⟨x, y⟩])) cs from rfl,
              ih _ _ h']
            simp [countM]
      | H x y =>
          have h' : countZ cs = 0 := by simpa [countZ] using h
          rcases cur with _ | ps
          · rw [show pathToPointsLoop samples none (Cmd.H x y :: cs) =
                pathToPointsLoop samples none cs from rfl, ih samples none h']
            simp [countM]
          · rw [show pathToPointsLoop samples (some ps) (Cmd.H x y :: cs) =
                pathToPointsLoop samples (some (ps ++ [⟨x, y⟩])) cs from rfl,
              ih _ _ h']
            simp [countM]
      | V x y =>
          have h' : countZ cs = 0 := by simpa [countZ] using h
          rcases cur with _ | ps
          · rw [show pathToPointsLoop samples none (Cmd.V x y :: cs) =
                pathToPointsLoop samples none cs from rfl, ih samples none h']
            simp [countM]
          · rw [show pathToPointsLoop samples (some ps) (Cmd.V x y :: cs) =
                pathToPointsLoop samples (some (ps ++ [⟨x, y⟩])) cs from rfl,
              ih _ _ h']
            simp [countM]
      | C x0 y0 x1 y1 x2 y2 x y =>
          have h' : countZ cs = 0 := by simpa [countZ] using h
          rcases cur with _ | ps
          · rw [show pathToPointsLoop samples none (Cmd.C x0 y0 x1 y1 x2 y2 x y :: cs) =
                pathToPointsLoop samples none cs from rfl, ih samples none h']
            simp [countM]
          · rw [show pathToPointsLoop samples (some ps) (Cmd.C x0 y0 x1 y1 x2 y2 x y :: cs) =
                pathToPointsLoop samples
                  (some (ps ++ bezierCSamples samples ⟨x0, y0⟩ ⟨x1, y1⟩ ⟨x2, y2⟩ ⟨x, y⟩)) cs
                from rfl,
              ih _ _ h']
            simp [countM]
      | Q x0 y0 x1 y1 x y =>
          have h' : countZ cs = 0 := by simpa [countZ] using h
          rcases cur with _ | ps
          · rw [show pathToPointsLoop samples none (Cmd.Q x0 y0 x1 y1 x y :: cs) =
                pathToPointsLoop samples none cs from rfl, ih samples none h']
            simp [countM]
          · rw [show pathToPointsLoop samples (some ps) (Cmd.Q x0 y0 x1 y1 x y :: cs) =
                pathToPointsLoop samples
                  (some (ps ++ bezierQSamples samples ⟨x0, y0⟩ ⟨x1, y1⟩ ⟨x, y⟩)) cs from rfl,
              ih _ _ h']
            simp [countM]
      | Z x0 y0 x y => simp [countZ] at h

/-- Helper: closedCount of a cons. -/
theorem closedCount_cons (s : BrushShape) (rest : List BrushShape) :
    closedCount (s :: rest) = (if s.closed then 1 else 0) + closedCount rest := by
  rcases s with ⟨ps, c⟩
  cases c
  · simp [closedCount, List.filter]
  · simp [closedCount, List.filter]
    omega

/-- Helper: each closed shape is terminated by an explicit close command, so
    the number of closed shapes is at most the number of close commands. -/
theorem pathToPointsLoop_closed_le_countZ : ∀ (cmds : List Cmd) (samples : ℕ)
    (cur : Option (List Point)),
    closedCount (pathToPointsLoop samples cur cmds) ≤ countZ cmds := by
  intro cmds
  induction cmds with
  | nil =>
      intro samples cur
      rcases cur with _ | ps <;> simp [pathToPointsLoop, closedCount, List.filter, countZ]
  | cons c cs ih =>
      intro samples cur
      cases c with
      | M x y =>
          rcases cur with _ | ps
          · exact le_trans (ih samples (some [⟨x, y⟩])) (by simp [countZ])
          · rw [show pathToPointsLoop samples (some ps) (Cmd.M x y :: cs) =
                { points := ps, closed := false } ::
                  pathToPointsLoop samples (some [⟨x, y⟩]) cs from rfl]
            rw [closedCount_cons]
            simp only [countZ]
            have := ih samples (some [(⟨x, y⟩ : Point)])
            simp only [Bool.false_eq_true, if_false]
            omega
      | L x y =>
          rcases cur with _ | ps
          · exact le_trans (ih samples none) (by simp [countZ])
          · exact le_trans (ih samples (some (ps ++ [⟨x, y⟩]))) (by simp [countZ])
      | H x y =>
          rcases cur with _ | ps
          · exact le_trans (ih samples none) (by simp [countZ])
          · exact le_trans (ih samples (some (ps ++ [⟨x, y⟩]))) (by simp [countZ])
      | V x y =>
          rcases cur with _ | ps
          · exact le_trans (ih samples none) (by simp [countZ])
          · exact le_trans (ih samples (some (ps ++ [⟨x, y⟩]))) (by simp [countZ])
      | C x0 y0 x1 y1 x2 y2 x y =>
          rcases cur with _ | ps
          · exact le_trans (ih samples none) (by simp [countZ])
          · exact le_trans
              (ih samples (some (ps ++ bezierCSamples samples ⟨x0, y0⟩ ⟨x1, y1⟩ ⟨x2, y2⟩ ⟨x, y⟩)))
              (by simp [countZ])
      | Q x0 y0 x1 y1 x y =>
          rcases cur with _ | ps
          · exact le_trans (ih samples none) (by simp [countZ])
          · exact le_trans
              (ih samples (some (ps ++ bezierQSamples samples ⟨x0, y0⟩ ⟨x1, y1⟩ ⟨x, y⟩)))
              (by simp [countZ])
      | Z x0 y0 x y =>
          rcases cur with _ | ps
          · exact le_trans (ih samples none) (by simp [countZ])
          · rw [show pathToPointsLoop samples (some ps) (Cmd.Z x0 y0 x y :: cs) =
                if 0 < ps.length then
                  { points := if x0 ≠ x ∨ y0 ≠ y then ps ++ [⟨x, y⟩] else ps, closed := true } ::
                    pathToPointsLoop samples none cs
                else pathToPointsLoop samples (some ps) cs from rfl]
            by_cases hlen : 0 < ps.length
            · rw [if_pos hlen, closedCount_cons]
              have := ih samples none
              simp only [countZ, if_true]
              omega
            · rw [if_neg hlen]
              have := ih samples (some ps)
              simp only [countZ]
              omega

/-- Helper: concrete evaluation of the decoding example.  The close command
    appends the subpath start (0,0) because the current point (10,10)
    differs from it, and flags the shape closed. -/
theorem pathToPoints_example_eval :
    pathToPoints "M0,0 L10,0 L10,10 Z" 2 =
      some [{ points := [⟨0, 0⟩, ⟨10, 0⟩, ⟨10, 10⟩, ⟨0, 0⟩], closed := true }] := by
  have hp : parseSVGAbs "M0,0 L10,0 L10,10 Z" =
      some [Cmd.M ((0 : ℕ) : ℝ) ((0 : ℕ) : ℝ), Cmd.L ((10 : ℕ) : ℝ) ((0 : ℕ) : ℝ),
        Cmd.L ((10 : ℕ) : ℝ) ((10 : ℕ) : ℝ),
        Cmd.Z ((10 : ℕ) : ℝ) ((10 : ℕ) : ℝ) ((0 : ℕ) : ℝ) ((0 : ℕ) : ℝ)] := rfl
  have hp2 : parseSVGAbs "M0,0 L10,0 L10,10 Z" =
      some [Cmd.M 0 0, Cmd.L 10 0, Cmd.L 10 10, Cmd.Z 10 10 0 0] := by
    rw [hp]; norm_num
  unfold pathToPoints
  rw [hp2]
  norm_num [pathToPointsCmds, pathToPointsLoop]

/-- Counterexample to C2: decoding "M0,0 L10,0 L10,10 Z" does not give the
    three-point shape the claim states; the close command appends the
    subpath start. -/
theorem pathToPoints_example_not_three_points :
    pathToPoints "M0,0 L10,0 L10,10 Z" 2 ≠
      some [{ points := [⟨0, 0⟩, ⟨10, 0⟩, ⟨10, 10⟩], closed := true }] := by
  rw [pathToPoints_example_eval]
  intro h
  simp only [Option.some.injEq, List.cons.injEq, BrushShape.mk.injEq] at h
  exact absurd h.1.1 (by simp)

/-- C2 (amended): decoding "M0,0 L10,0 L10,10 Z" yields exactly one Shape,
    closed, with points [(0,0),(10,0),(10,10),(0,0)] (the close command
    appends the subpath start because the current point differs from it);
    more generally with no close command every decoded shape has
    closed = false and a new shape begins at each move command (shape count
    equals move count), and closed shapes never outnumber the explicit
    close commands. -/
theorem pathToPoints_shapes_spec :
    pathToPoints "M0,0 L10,0 L10,10 Z" 2 =
      some [{ points := [⟨0, 0⟩, ⟨10, 0⟩, ⟨10, 10⟩, ⟨0, 0⟩], closed := true }] ∧
    (∀ (samples : ℕ) (cmds : List Cmd), countZ cmds = 0 →
      (∀ shape ∈ pathToPointsCmds samples cmds, shape.closed = false) ∧
      (pathToPointsCmds samples cmds).length = countM cmds) ∧
    (∀ (samples : ℕ) (cmds : List Cmd),
      closedCount (pathToPointsCmds samples cmds) ≤ countZ cmds) := by
  refine ⟨pathToPoints_example_eval, ?_, ?_⟩
  · intro samples cmds h
    refine ⟨pathToPointsLoop_noZ_closed cmds samples none h, ?_⟩
    have := pathToPointsLoop_noZ_length cmds samples none h
    simpa [pathToPointsCmds] using this
  · intro samples cmds
    exact pathToPointsLoop_closed_le_countZ cmds samples none

/-- Witness for C2 at a concrete close-free command list. -/
theorem pathToPoints_shapes_spec_witness :
    (countZ [Cmd.M 0 0, Cmd.L 10 0] = 0 ∧
      (∀ shape ∈ pathToPointsCmds 2 [Cmd.M 0 0, Cmd.L 10 0], shape.closed = false) ∧
      (pathToPointsCmds 2 [Cmd.M 0 0, Cmd.L 10 0]).length = countM [Cmd.M 0 0, Cmd.L 10 0]) ∧
    closedCount (pathToPointsCmds 2 [Cmd.M 0 0, Cmd.L 10 0]) ≤ countZ [Cmd.M 0 0, Cmd.L 10 0] :=
  ⟨⟨by decide, pathToPoints_shapes_spec.2.1 2 [Cmd.M 0 0, Cmd.L 10 0] (by decide)⟩,
   pathToPoints_shapes_spec.2.2 2 [Cmd.M 0 0, Cmd.L 10 0]⟩

/-- Helper: copying a point is the identity. -/
theorem copyPoint_eq (p : Point) : copyPoint p = p := rfl

/-- Helper: mapping the copy over a list is the identity. -/
theorem map_copyPoint (ps : List Point) : ps.map copyPoint = ps := by
  rw [show copyPoint = id from rfl, List.map_id]

/-- Helper: the augmentation edge loop keeps every original point, in
    order. -/
theorem sublist_augmentPointsLoop : ∀ (rest : List Point) (prev : Point)
    (userParameters : List ℝ), rest.Sublist (augmentPointsLoop userParameters prev rest) := by
  intro rest
  induction rest with
  | nil => intro prev u; exact List.Sublist.refl []
  | cons curr rest ih =>
      intro prev u
      rw [show augmentPointsLoop u prev (curr :: rest) =
          insertedPoints u prev curr ++ copyPoint curr :: augmentPointsLoop u curr rest from rfl,
        copyPoint_eq]
      exact List.Sublist.trans
        (List.Sublist.cons₂ curr (ih curr u))
        (List.sublist_append_right (insertedPoints u prev curr) _)

/-- C6: augmentation never removes original brush points (they remain a
    sublist, in order), never changes the closed flag of a shape, never shrinks
    the point count, and passes shapes with fewer than 2 points through
    unchanged. -/
theorem augmentBrushShape_preserves :
    ∀ (outline : List BrushShape) (userPathPoints : List Point),
      List.Forall₂ (fun orig aug =>
          aug.closed = orig.closed ∧
          orig.points.Sublist aug.points ∧
          orig.points.length ≤ aug.points.length ∧
          (orig.points.length < 2 → aug.points = orig.points))
        outline (augmentBrushShape outline userPathPoints) := by
  intro outline path
  unfold augmentBrushShape
  by_cases hu : (computeUserParameters path).length ≤ 1
  · rw [if_pos hu]
    rw [List.forall₂_same]
    intro shape _hs
    exact ⟨rfl, List.Sublist.refl _, le_refl _, fun _ => rfl⟩
  · rw [if_neg hu]
    rw [List.forall₂_map_right_iff, List.forall₂_same]
    intro shape _hs
    rcases shape with ⟨ps, c⟩
    rcases ps with _ | ⟨p, _ | ⟨q, rest⟩⟩
    · exact ⟨rfl, by simp [map_copyPoint], by simp [map_copyPoint], fun _ => by simp [map_copyPoint]⟩
    · exact ⟨rfl, by simp [copyPoint_eq], by simp [copyPoint_eq], fun _ => by simp [copyPoint_eq]⟩
    · refine ⟨rfl, ?_, ?_, ?_⟩
      · show (p :: q :: rest).Sublist
          (copyPoint p :: augmentPointsLoop (computeUserParameters path) p (q :: rest))
        rw [copyPoint_eq]
        exact List.Sublist.cons₂ p (sublist_augmentPointsLoop (q :: rest) p _)
      · have := (List.Sublist.cons₂ p
          (sublist_augmentPointsLoop (q :: rest) p (computeUserParameters path))).length_le
        simpa [copyPoint_eq] using this
      · intro hlen
        simp at hlen
        omega

/-- Witness for C6 at a concrete outline and path. -/
theorem augmentBrushShape_preserves_witness :
    List.Forall₂ (fun orig aug =>
        aug.closed = orig.closed ∧
        orig.points.Sublist aug.points ∧
        orig.points.length ≤ aug.points.length ∧
        (orig.points.length < 2 → aug.points = orig.points))
      [({ points := [⟨0, -5⟩, ⟨100, 5⟩], closed := true } : BrushShape)]
      (augmentBrushShape [{ points := [⟨0, -5⟩, ⟨100, 5⟩], closed := true }]
        [⟨0, 0⟩, ⟨1, 0⟩]) :=
  augmentBrushShape_preserves [{ points := [⟨0, -5⟩, ⟨100, 5⟩], closed := true }]
    [⟨0, 0⟩, ⟨1, 0⟩]

/-- Helper: the last entry of the parameter accumulation loop is the fully
    accumulated length, normalized and capped. -/
theorem paramsLoop_last : ∀ (rest : List Point) (prev : Point) (L acc d : ℝ), rest ≠ [] →
    (paramsLoop L acc prev rest).getLastD d =
      min 1 ((acc + pathLenAux prev rest) / L) * backboneLength := by
  intro rest
  induction rest with
  | nil => intro prev L acc d h; exact absurd rfl h
  | cons curr rest ih =>
      intro prev L acc d _h
      rcases rest with _ | ⟨r, rest'⟩
      · show (min 1 ((acc + segLen prev curr) / L) * backboneLength) =
          min 1 ((acc + pathLenAux prev [curr]) / L) * backboneLength
        rw [pathLenAux_cons]
        norm_num [pathLenAux]
      · rw [show paramsLoop L acc prev (curr :: r :: rest') =
            (min 1 ((acc + segLen prev curr) / L) * backboneLength) ::
              paramsLoop L (acc + segLen prev curr) curr (r :: rest') from rfl]
        rw [List.getLastD_cons]
        rw [ih curr L (acc + segLen prev curr) _ (List.cons_ne_nil _ _)]
        simp only [pathLenAux_cons]
        ring_nf

/-- Helper: the last raw parameter is exactly the backbone length when the
    path has at least two points and positive length. -/
theorem rawParameters_last (p : Point) (rest : List Point) (hne : rest ≠ [])
    (hL : 0 < getPathLength (p :: rest)) :
    (rawParameters (p :: rest)).getLastD 0 = backboneLength := by
  rw [show rawParameters (p :: rest) =
      0 :: paramsLoop (getPathLength (p :: rest)) 0 p rest from rfl]
  rw [List.getLastD_cons]
  rw [paramsLoop_last rest p _ 0 0 hne]
  rw [show getPathLength (p :: rest) = pathLenAux p rest from rfl]
  rw [zero_add, div_self (by positivity)]
  norm_num [backboneLength]

/-- Helper: deduplication keeps a sublist. -/
theorem dedupAux_sublist : ∀ (qs : List ℝ) (lastv : ℝ), (dedupAux lastv qs).Sublist qs := by
  intro qs
  induction qs with
  | nil => intro lastv; exact List.Sublist.refl []
  | cons q rest ih =>
      intro lastv
      rw [show dedupAux lastv (q :: rest) =
          if |q - lastv| > PARAM_EPSILON then q :: dedupAux q rest
          else dedupAux lastv rest from rfl]
      by_cases h : |q - lastv| > PARAM_EPSILON
      · rw [if_pos h]; exact List.Sublist.cons₂ q (ih q)
      · rw [if_neg h]; exact List.Sublist.cons q (ih lastv)

/-- Helper: the last kept value of the deduplication loop is within epsilon
    of the last input value. -/
theorem dedupAux_last_close : ∀ (qs : List ℝ) (lastv : ℝ),
    |qs.getLastD lastv - (dedupAux lastv qs).getLastD lastv| ≤ PARAM_EPSILON := by
  intro qs
  induction qs with
  | nil =>
      intro lastv
      simp [dedupAux, List.getLastD, PARAM_EPSILON]
      norm_num
  | cons q rest ih =>
      intro lastv
      rw [show dedupAux lastv (q :: rest) =
          if |q - lastv| > PARAM_EPSILON then q :: dedupAux q rest
          else dedupAux lastv rest from rfl]
      by_cases h : |q - lastv| > PARAM_EPSILON
      · rw [if_pos h, List.getLastD_cons, List.getLastD_cons]
        exact ih q
      · rw [if_neg h, List.getLastD_cons]
        rcases rest with _ | ⟨r, rest'⟩
        · show |q - (dedupAux lastv []).getLastD lastv| ≤ PARAM_EPSILON
          show |q - lastv| ≤ PARAM_EPSILON
          exact le_of_not_lt h
        · have hsame : (r :: rest').getLastD q = (r :: rest').getLastD lastv := by
            rw [List.getLastD_cons, List.getLastD_cons]
          rw [hsame]
          exact ih lastv

/-- Helper: every parameter produced by the accumulation loop is at most the
    backbone length. -/
theorem paramsLoop_le : ∀ (rest : List Point) (prev : Point) (L acc : ℝ),
    ∀ x ∈ paramsLoop L acc prev rest, x ≤ backboneLength := by
  intro rest
  induction rest with
  | nil => intro prev L acc x hx; simp [paramsLoop] at hx
  | cons curr rest ih =>
      intro prev L acc x hx
      rw [show paramsLoop L acc prev (curr :: rest) =
          (min 1 ((acc + segLen prev curr) / L) * backboneLength) ::
            paramsLoop L (acc + segLen prev curr) curr rest from rfl] at hx
      rcases List.mem_cons.mp hx with rfl | hx
      · have h1 : min 1 ((acc + segLen prev curr) / L) ≤ 1 := min_le_left _ _
        have h2 : (0 : ℝ) ≤ backboneLength := by norm_num [backboneLength]
        calc min 1 ((acc + segLen prev curr) / L) * backboneLength
            ≤ 1 * backboneLength := mul_le_mul_of_nonneg_right h1 h2
          _ = backboneLength := one_mul _
      · exact ih curr L (acc + segLen prev curr) x hx

/-- C7 (amended): for a UserPath with at least 2 points and positive length,
    the parameter table is exactly the epsilon-deduplication of the
    normalized cumulative arc-length values (a sublist of them, so no other
    values appear and the forced final push never fires in exact
    arithmetic), and its final value lies within PARAM_EPSILON of
    backboneLength (at least backboneLength - epsilon and at most
    backboneLength), though not necessarily exactly backboneLength. -/
theorem computeUserParameters_spec :
    ∀ (points : List Point), 2 ≤ points.length → 0 < getPathLength points →
      computeUserParameters points = dedupParams (rawParameters points) ∧
      (computeUserParameters points).Sublist (rawParameters points) ∧
      backboneLength - PARAM_EPSILON ≤ (computeUserParameters points).getLastD 0 ∧
      (computeUserParameters points).getLastD 0 ≤ backboneLength := by
  intro points h2 hL
  rcases points with _ | ⟨p, rest⟩
  · simp at h2
  have hne : rest ≠ [] := by
    rcases rest with _ | ⟨q, rest'⟩
    · simp at h2
    · exact List.cons_ne_nil _ _
  have hraw : rawParameters (p :: rest) =
      0 :: paramsLoop (getPathLength (p :: rest)) 0 p rest := rfl
  set qs := paramsLoop (getPathLength (p :: rest)) 0 p rest with hqs
  have hrawlast : (rawParameters (p :: rest)).getLastD 0 = backboneLength :=
    rawParameters_last p rest hne hL
  have hqslast : qs.getLastD 0 = backboneLength := by
    have h := hrawlast
    rw [hraw, List.getLastD_cons] at h
    exact h
  have hclose := dedupAux_last_close qs 0
  rw [hqslast] at hclose
  set lk := (dedupAux 0 qs).getLastD 0 with hlk
  have habs := abs_le.mp hclose
  have hlow : backboneLength - PARAM_EPSILON ≤ lk := by
    rcases habs with ⟨_hl, hr⟩
    linarith
  have hmem : lk ∈ (0 : ℝ) :: dedupAux 0 qs := List.getLastD_mem_cons _ _
  have hsub : ((0 : ℝ) :: dedupAux 0 qs).Sublist ((0 : ℝ) :: qs) :=
    List.Sublist.cons₂ _ (dedupAux_sublist qs 0)
  have hmem2 : lk ∈ (0 : ℝ) :: qs := hsub.subset hmem
  have hup : lk ≤ backboneLength := by
    rcases List.mem_cons.mp hmem2 with h0 | hq
    · rw [h0]; norm_num [backboneLength]
    · exact paramsLoop_le rest p _ 0 lk hq
  have hunique : dedupParams (rawParameters (p :: rest)) = 0 :: dedupAux 0 qs := by
    rw [hraw]
    rfl
  have hcond : ¬ ((dedupParams (rawParameters (p :: rest))).getLastD 0 <
      backboneLength - PARAM_EPSILON) := by
    rw [hunique, List.getLastD_cons]
    exact not_lt.mpr hlow
  have hcompute : computeUserParameters (p :: rest) =
      dedupParams (rawParameters (p :: rest)) := by
    rw [show computeUserParameters (p :: rest) =
        (if getPathLength (p :: rest) = 0 then [0] else
          if (dedupParams (rawParameters (p :: rest))).getLastD 0 <
              backboneLength - PARAM_EPSILON
          then dedupParams (rawParameters (p :: rest)) ++ [backboneLength]
          else dedupParams (rawParameters (p :: rest))) from rfl]
    rw [if_neg hL.ne', if_neg hcond]
  refine ⟨hcompute, ?_, ?_, ?_⟩
  · rw [hcompute, hunique, hraw]
    exact hsub
  · rw [hcompute, hunique, List.getLastD_cons]
    exact hlow
  · rw [hcompute, hunique, List.getLastD_cons]
    exact hup

/-- Counterexample to C7: for the path [(0,0),(9999,0),(10000,0)] the
    second vertex parameter 99.99 is within PARAM_EPSILON of 100, so the
    final raw value 100 is deduplicated away and the table ends at 99.99,
    not exactly at backboneLength. -/
theorem computeUserParameters_final_not_backbone :
    computeUserParameters [⟨0, 0⟩, ⟨9999, 0⟩, ⟨10000, 0⟩] = [0, 9999 / 100] ∧
    (computeUserParameters [⟨0, 0⟩, ⟨9999, 0⟩, ⟨10000, 0⟩]).getLastD 0 ≠ backboneLength := by
  have hs1 : Real.sqrt 99980001 = 9999 := sqrt_of_sq 9999 _ (by norm_num) (by norm_num)
  have heval : computeUserParameters [⟨0, 0⟩, ⟨9999, 0⟩, ⟨10000, 0⟩] = [0, 9999 / 100] := by
    norm_num [computeUserParameters, rawParameters, paramsLoop, dedupParams, dedupAux,
      getPathLength, pathLenAux, backboneLength, PARAM_EPSILON, min_def, List.getLastD,
      hs1, Real.sqrt_one, abs_of_nonneg]
  refine ⟨heval, ?_⟩
  rw [heval]
  norm_num [List.getLastD, backboneLength]

/-- Witness for C7 at a concrete two-point path of length 100. -/
theorem computeUserParameters_spec_witness :
    2 ≤ ([(⟨0, 0⟩ : Point), ⟨100, 0⟩] : List Point).length ∧
    0 < getPathLength [(⟨0, 0⟩ : Point), ⟨100, 0⟩] ∧
    (computeUserParameters [(⟨0, 0⟩ : Point), ⟨100, 0⟩] =
        dedupParams (rawParameters [(⟨0, 0⟩ : Point), ⟨100, 0⟩]) ∧
      (computeUserParameters [(⟨0, 0⟩ : Point), ⟨100, 0⟩]).Sublist
        (rawParameters [(⟨0, 0⟩ : Point), ⟨100, 0⟩]) ∧
      backboneLength - PARAM_EPSILON ≤
        (computeUserParameters [(⟨0, 0⟩ : Point), ⟨100, 0⟩]).getLastD 0 ∧
      (computeUserParameters [(⟨0, 0⟩ : Point), ⟨100, 0⟩]).getLastD 0 ≤ backboneLength) := by
  have hpos : 0 < getPathLength [(⟨0, 0⟩ : Point), ⟨100, 0⟩] := by
    norm_num [getPathLength, pathLenAux]
  exact ⟨by decide, hpos, computeUserParameters_spec _ (by decide) hpos⟩
